import Mathlib

/-
Shallow embedding of `src/crawler.js` (a bounded-depth breadth-first web
crawler) and verification of its specification.

Modelling conventions:
* JS strings are `List Char` (`Addr`).
* A fetched page (`AxiosResponse`) is a `Page`: its HTTP status and the list
  of href attribute values of the anchor elements that `cheerio.load(...)('a')`
  finds in the body (`none` when an anchor has no `attribs`/`href`, matching
  the `typeof url === 'string'` filter in `queueLinks`).
* The injected collaborators (`isURL` from the validator package and
  `axios.get`) are parameters: `isURL : Addr → Bool` and
  `fetch : Addr → Option Page`, where `none` models a rejected promise
  (network failure).
* JS `Set` values are `Finset Addr`; throwing is the `Except CrawlError`
  monad.
* `crawl` additionally returns an instrumentation trace: one entry per
  executed level, recording the set of addresses fetched at that level and
  the visited set (`allLinks`) as it stood at the start of that level.
  The JS function returns only the final set; the trace is ghost state used
  to state temporal properties about fetches.
-/

abbrev Addr := List Char

structure Page where
  status : Nat
  anchors : List (Option Addr)
  deriving DecidableEq

inductive CrawlError where
  | invalidAddress (url : Addr)
  | fetchError
  deriving DecidableEq

/-- `url.replace(/^https/, 'http')` (line 33): an anchored regex replacing one
leading occurrence of `https` with `http`. -/
def canonicalizeScheme (url : Addr) : Addr :=
  if url.take 5 = "https".toList then "http".toList ++ url.drop 5 else url

/-- `queueLinks` (lines 21-37): on a 200 status, collect the href attributes
of all anchors, drop the non-strings, apply the caller filter, rewrite the
leading `https` to `http` and collect the results into a set; on any other
status log the error and return the empty set. -/
def queueLinks (pageContent : Page) (filterFn : Addr → Bool) : Finset Addr :=
  if pageContent.status = 200 then
    (((pageContent.anchors.filterMap id).filter filterFn).map
      canonicalizeScheme).toFinset
  else
    ∅

/-- The fetch-and-extract task run per frontier address (lines 71-74):
`queueLinks(await axios.get(url), filterFn)`.  The `none` branch is never
used on a level that completes (a rejected fetch rejects the whole level). -/
def extractFrom (fetch : Addr → Option Page) (filterFn : Addr → Bool)
    (url : Addr) : Finset Addr :=
  match fetch url with
  | some page => queueLinks page filterFn
  | none => ∅

/-- The per-level combined link set: the reduce on lines 76-85 folds the
per-address result sets of `Promise.all` into their union, which is the
supremum of `extractFrom` over the frontier (see `mergeSets` and the theorem
for C9 for the fold itself and its equality to this supremum for every
enumeration order of the frontier). -/
def combinedSet (fetch : Addr → Option Page) (filterFn : Addr → Bool)
    (links : Finset Addr) : Finset Addr :=
  links.sup (extractFrom fetch filterFn)

/-- The literal accumulator of lines 76-85:
`newLinks.reduce((urlList, urlSet) => { for url of urlList urlSet.add(url);
return urlSet }, new Set([]))`, i.e. a left fold whose step adds the
accumulator's elements into the current per-address set. -/
def mergeSets (newLinks : List (Finset Addr)) : Finset Addr :=
  newLinks.foldl (fun urlList urlSet => urlSet ∪ urlList) ∅

/-- One iteration of the `for` loop body on a nonempty frontier
(lines 71-89): `Promise.all` fetches every frontier address and rejects the
level if any fetch rejects; otherwise the merged link set is diffed against
the visited set as it stood at the start of the level (line 86 runs before
the adds of lines 87-89), and every merged link is added to the visited set.
Returns the pair (new `links`, new `allLinks`). -/
def crawlStep (fetch : Addr → Option Page) (filterFn : Addr → Bool)
    (links allLinks : Finset Addr) :
    Except CrawlError (Finset Addr × Finset Addr) :=
  if ∀ u ∈ links, (fetch u).isSome = true then
    .ok ((combinedSet fetch filterFn links) \ allLinks,
         allLinks ∪ combinedSet fetch filterFn links)
  else
    .error .fetchError

/-- The `for (let i = 1; i < depth; ++i)` loop (lines 67-90), with the level
for the seed fetch folded in as the first iteration: starting from
`links = allLinks = queueLinks(mainPage)` is exactly one `crawlStep` from the
state `({seed}, ∅)`.  `fuel` is the number of loop iterations left
(`depth` at the top call).  When `links` is empty the JS body sets
`i = depth` and still runs once, but `Promise.all` over the empty frontier
performs no fetch and leaves both sets unchanged, after which the loop
exits; that ghost iteration is observably an immediate exit, which is how it
is modelled.  The returned list records, per executed level, the fetched
frontier and the visited set at the start of the level. -/
def crawlGo (fetch : Addr → Option Page) (filterFn : Addr → Bool) :
    Nat → Finset Addr × Finset Addr →
    Except CrawlError (Finset Addr × List (Finset Addr × Finset Addr))
  | 0, st => .ok (st.2, [])
  | fuel + 1, st =>
    if st.1 = ∅ then
      .ok (st.2, [])
    else
      match crawlStep fetch filterFn st.1 st.2 with
      | .error e => .error e
      | .ok st' =>
        match crawlGo fetch filterFn fuel st' with
        | .error e => .error e
        | .ok (res, tr) => .ok (res, (st.1, st.2) :: tr)

/-- `crawl` (lines 49-92): build the seed `http://${domain}`, throw if it is
not a URL, return the singleton seed set at depth 0, otherwise fetch the
seed and run the level loop.  The second component of a successful result is
the ghost fetch trace described at `crawlGo`. -/
def crawl (isURL : Addr → Bool) (fetch : Addr → Option Page) (domain : Addr)
    (depth : Nat) (filterFn : Addr → Bool) :
    Except CrawlError (Finset Addr × List (Finset Addr × Finset Addr)) :=
  if isURL ("http://".toList ++ domain) = false then
    .error (.invalidAddress ("http://".toList ++ domain))
  else if depth = 0 then
    .ok ({"http://".toList ++ domain}, [])
  else
    crawlGo fetch filterFn depth ({"http://".toList ++ domain}, ∅)

/- Concrete collaborators for the scenarios used as witnesses and
counterexamples: a two-page site where the seed page links only to page B
and page B links back to the seed. -/

def exDomain : Addr := "s.com".toList

def exSeed : Addr := "http://s.com".toList

def exB : Addr := "http://b.com".toList

def exFilter : Addr → Bool := fun _ => true

def exIsURL : Addr → Bool := fun _ => true

def exFetch : Addr → Option Page := fun u =>
  if u = exSeed then some ⟨200, [some exB]⟩
  else if u = exB then some ⟨200, [some exSeed]⟩
  else none

/-- The fetch trace of the depth-2 scenario crawl: the seed is fetched at
level 0 with nothing visited, then B at level 1 with `{B}` visited. -/
def exTrace : List (Finset Addr × Finset Addr) :=
  [({exSeed}, ∅), ({exB}, {exB})]

/- A site whose seed page carries a single link written with the scheme
`httpss`, which the anchored rewrite of line 33 turns into `https`. -/

def c4Fetch : Addr → Option Page := fun u =>
  if u = "http://example.com".toList then
    some ⟨200, [some "httpss://example.com".toList]⟩
  else none

/-- The fetch trace of the depth-1 `httpss` scenario crawl: only the seed is
fetched, at level 0, with nothing visited. -/
def c4Trace : List (Finset Addr × Finset Addr) :=
  [({"http://example.com".toList}, ∅)]

/-- **C5**: for every valid domain and every filter, depth 0 returns exactly
the singleton holding the seed `http://${domain}` and performs no fetch (the
trace is empty, and the result does not depend on the fetcher at all). -/
theorem c5_depth_zero (isURL : Addr → Bool) (fetch : Addr → Option Page)
    (domain : Addr) (filterFn : Addr → Bool)
    (h : isURL ("http://".toList ++ domain) = true) :
    crawl isURL fetch domain 0 filterFn
      = .ok ({"http://".toList ++ domain}, []) := by
  unfold crawl
  rw [if_neg (by simp only [h]; decide), if_pos rfl]

theorem c5_witness :
    crawl exIsURL exFetch exDomain 0 exFilter
      = .ok ({"http://".toList ++ exDomain}, []) :=
  c5_depth_zero exIsURL exFetch exDomain exFilter rfl

/-- **C7**: for every page result whose status is not 200 and every filter,
`queueLinks` returns the empty set (it is a total function: it logs the bad
status and does not throw). -/
theorem c7_bad_status (pageContent : Page) (filterFn : Addr → Bool)
    (h : pageContent.status ≠ 200) :
    queueLinks pageContent filterFn = ∅ := by
  unfold queueLinks
  rw [if_neg h]

theorem c7_witness : queueLinks ⟨500, [some exB]⟩ exFilter = ∅ :=
  c7_bad_status ⟨500, [some exB]⟩ exFilter (by decide)

/-- **C8**: for every domain whose `http://` prefixing is not well formed
according to the validator, `crawl` fails with the invalid-address error for
every depth and filter, before any fetch is attempted (the result does not
depend on the fetcher, and no partial set is returned). -/
theorem c8_invalid_url (isURL : Addr → Bool) (fetch : Addr → Option Page)
    (domain : Addr) (depth : Nat) (filterFn : Addr → Bool)
    (h : isURL ("http://".toList ++ domain) = false) :
    crawl isURL fetch domain depth filterFn
      = .error (.invalidAddress ("http://".toList ++ domain)) := by
  unfold crawl
  rw [if_pos h]

theorem c8_witness :
    crawl (fun _ => false) exFetch exDomain 3 exFilter
      = .error (.invalidAddress ("http://".toList ++ exDomain)) :=
  c8_invalid_url (fun _ => false) exFetch exDomain 3 exFilter rfl

/-- **C1, counterexample**: in the depth-2 scenario where the seed page links
only to page B and page B links back to the seed, the level-1 iteration
starts from `links = allLinks = {B}` (second trace entry), and the Frontier
computed at level 2 by `crawlStep` from that state is `{seed}`: the set
difference is taken against a Visited Set that never received the seed
address, so it does not exclude it, contradicting the claim that the seed is
not added to the Frontier at level 2. -/
theorem c1_counterexample :
    crawl exIsURL exFetch exDomain 2 exFilter
      = .ok ({exB, exSeed}, [({exSeed}, ∅), ({exB}, {exB})]) ∧
    crawlStep exFetch exFilter {exB} {exB} = .ok ({exSeed}, {exB, exSeed}) ∧
    exSeed ∈ ({exSeed} : Finset Addr) :=
  ⟨rfl, rfl, Finset.mem_singleton_self exSeed⟩

/-- **C1, amended**: in the same scenario the seed's own address IS added to
the Frontier computed at level 2 (the Visited Set holds only `{B}` there, so
the difference does not exclude the seed); running the same site at depth 3
makes this observable: the third trace entry shows the seed being fetched
again at level 2. -/
theorem c1_amended :
    crawl exIsURL exFetch exDomain 3 exFilter
      = .ok ({exSeed, exB},
          [({exSeed}, ∅), ({exB}, {exB}), ({exSeed}, {exB, exSeed})]) :=
  rfl

/-- **C4, counterexample**: a crawl of a valid domain whose seed page carries
the link `httpss://example.com` returns a set whose only member is
`https://example.com` — an address whose scheme is the secure variant — because
the anchored rewrite of line 33 replaces only the first `https` occurrence
and thereby turns `httpss` into `https`. -/
theorem c4_counterexample :
    crawl (fun _ => true) c4Fetch "example.com".toList 1 (fun _ => true)
      = .ok ({"https://example.com".toList},
          [({"http://example.com".toList}, ∅)]) ∧
    ("https://example.com".toList).take 5 = "https".toList :=
  ⟨rfl, rfl⟩

/- Inversion lemmas for `crawlStep` and `crawlGo`. -/

lemma crawlStep_ok_inv {fetch : Addr → Option Page} {filterFn : Addr → Bool}
    {links allLinks : Finset Addr} {st' : Finset Addr × Finset Addr}
    (h : crawlStep fetch filterFn links allLinks = .ok st') :
    st' = (combinedSet fetch filterFn links \ allLinks,
           allLinks ∪ combinedSet fetch filterFn links) ∧
    ∀ u ∈ links, (fetch u).isSome = true := by
  unfold crawlStep at h
  split at h
  next hall =>
    injection h with h'
    exact ⟨h'.symm, hall⟩
  next => exact Except.noConfusion h

lemma crawlGo_zero_inv {fetch : Addr → Option Page} {filterFn : Addr → Bool}
    {st : Finset Addr × Finset Addr} {res : Finset Addr}
    {tr : List (Finset Addr × Finset Addr)}
    (h : crawlGo fetch filterFn 0 st = .ok (res, tr)) :
    res = st.2 ∧ tr = [] := by
  simp only [crawlGo] at h
  injection h with h'
  injection h' with ha hb
  exact ⟨ha.symm, hb.symm⟩

lemma crawlGo_succ_inv {fetch : Addr → Option Page} {filterFn : Addr → Bool}
    {fuel : Nat} {st : Finset Addr × Finset Addr} {res : Finset Addr}
    {tr : List (Finset Addr × Finset Addr)}
    (h : crawlGo fetch filterFn (fuel + 1) st = .ok (res, tr)) :
    (st.1 = ∅ ∧ res = st.2 ∧ tr = []) ∨
    (st.1 ≠ ∅ ∧ ∃ st' tr',
      crawlStep fetch filterFn st.1 st.2 = .ok st' ∧
      crawlGo fetch filterFn fuel st' = .ok (res, tr') ∧
      tr = (st.1, st.2) :: tr') := by
  simp only [crawlGo] at h
  by_cases he : st.1 = ∅
  · rw [if_pos he] at h
    injection h with h'
    injection h' with ha hb
    exact Or.inl ⟨he, ha.symm, hb.symm⟩
  · rw [if_neg he] at h
    split at h
    next e heq => exact Except.noConfusion h
    next st' heq =>
      split at h
      next e2 heq2 => exact Except.noConfusion h
      next res' tr' heq2 =>
        injection h with h'
        injection h' with ha hb
        exact Or.inr ⟨he, st', tr', heq, by rw [heq2, ha], hb.symm⟩

/- Invariants of the level loop, by induction on the remaining fuel. -/

lemma crawlGo_visited_subset {fetch : Addr → Option Page}
    {filterFn : Addr → Bool} :
    ∀ fuel st res tr, crawlGo fetch filterFn fuel st = .ok (res, tr) →
      st.2 ⊆ res := by
  intro fuel
  induction fuel with
  | zero =>
    intro st res tr h
    obtain ⟨h1, _⟩ := crawlGo_zero_inv h
    rw [h1]
  | succ fuel ih =>
    intro st res tr h
    rcases crawlGo_succ_inv h with ⟨_, h1, _⟩ | ⟨_, st', tr', hstep, hgo, _⟩
    · rw [h1]
    · obtain ⟨hst', _⟩ := crawlStep_ok_inv hstep
      have h2 := ih st' res tr' hgo
      rw [hst'] at h2
      exact Finset.Subset.trans Finset.subset_union_left h2

lemma crawlGo_avoid {fetch : Addr → Option Page} {filterFn : Addr → Bool} :
    ∀ fuel st res tr, crawlGo fetch filterFn fuel st = .ok (res, tr) →
      ∀ A : Finset Addr, (∀ u ∈ st.1, u ∉ A) → A ⊆ st.2 →
      ∀ e ∈ tr, ∀ u ∈ e.1, u ∉ A := by
  intro fuel
  induction fuel with
  | zero =>
    intro st res tr h A _ _ e he
    obtain ⟨_, h2⟩ := crawlGo_zero_inv h
    subst h2
    exact absurd he (List.not_mem_nil e)
  | succ fuel ih =>
    intro st res tr h A hA1 hA2 e he u hu
    rcases crawlGo_succ_inv h with ⟨_, _, h2⟩ | ⟨_, st', tr', hstep, hgo, htr⟩
    · subst h2
      exact absurd he (List.not_mem_nil e)
    · subst htr
      obtain ⟨hst', _⟩ := crawlStep_ok_inv hstep
      rcases List.mem_cons.mp he with rfl | he'
      · exact hA1 u hu
      · refine ih st' res tr' hgo A ?_ ?_ e he' u hu
        · intro v hv hvA
          rw [hst'] at hv
          exact (Finset.mem_sdiff.mp hv).2 (hA2 hvA)
        · rw [hst']
          exact Finset.Subset.trans hA2 Finset.subset_union_left

lemma crawlGo_drop {fetch : Addr → Option Page} {filterFn : Addr → Bool} :
    ∀ fuel st res tr, crawlGo fetch filterFn fuel st = .ok (res, tr) →
      ∀ i (hi : i < tr.length), ∀ e ∈ tr.drop (i + 1), ∀ u ∈ e.1,
        u ∉ (tr.get ⟨i, hi⟩).2 := by
  intro fuel
  induction fuel with
  | zero =>
    intro st res tr h i hi
    obtain ⟨_, h2⟩ := crawlGo_zero_inv h
    subst h2
    exact absurd hi (by simp)
  | succ fuel ih =>
    intro st res tr h i hi e he u hu
    rcases crawlGo_succ_inv h with ⟨_, _, h2⟩ | ⟨_, st', tr', hstep, hgo, htr⟩
    · subst h2
      exact absurd hi (by simp)
    · subst htr
      obtain ⟨hst', _⟩ := crawlStep_ok_inv hstep
      cases i with
      | zero =>
        simp only [List.get_eq_getElem, List.getElem_cons_zero]
        simp only [List.drop_succ_cons, List.drop_zero] at he
        refine crawlGo_avoid fuel st' res tr' hgo st.2 ?_ ?_ e he u hu
        · intro v hv hvA
          rw [hst'] at hv
          exact (Finset.mem_sdiff.mp hv).2 hvA
        · rw [hst']
          exact Finset.subset_union_left
      | succ k =>
        simp only [List.get_eq_getElem, List.getElem_cons_succ]
        have hk : k < tr'.length := by
          simp only [List.length_cons] at hi
          omega
        have he' : e ∈ tr'.drop (k + 1) := by
          simpa only [List.drop_succ_cons] using he
        have := ih st' res tr' hgo k hk e he' u hu
        simpa only [List.get_eq_getElem] using this

lemma crawlGo_fetch_ok {fetch : Addr → Option Page} {filterFn : Addr → Bool} :
    ∀ fuel st res tr, crawlGo fetch filterFn fuel st = .ok (res, tr) →
      ∀ e ∈ tr, ∀ u ∈ e.1, (fetch u).isSome = true := by
  intro fuel
  induction fuel with
  | zero =>
    intro st res tr h e he
    obtain ⟨_, h2⟩ := crawlGo_zero_inv h
    subst h2
    exact absurd he (List.not_mem_nil e)
  | succ fuel ih =>
    intro st res tr h e he u hu
    rcases crawlGo_succ_inv h with ⟨_, _, h2⟩ | ⟨_, st', tr', hstep, hgo, htr⟩
    · subst h2
      exact absurd he (List.not_mem_nil e)
    · subst htr
      obtain ⟨_, hall⟩ := crawlStep_ok_inv hstep
      rcases List.mem_cons.mp he with rfl | he'
      · exact hall u hu
      · exact ih st' res tr' hgo e he' u hu

lemma crawlGo_mem_source {fetch : Addr → Option Page} {filterFn : Addr → Bool} :
    ∀ fuel st res tr, crawlGo fetch filterFn fuel st = .ok (res, tr) →
      ∀ x ∈ res, x ∈ st.2 ∨ ∃ e ∈ tr, ∃ u ∈ e.1, ∃ p,
        fetch u = some p ∧ x ∈ queueLinks p filterFn := by
  intro fuel
  induction fuel with
  | zero =>
    intro st res tr h x hx
    obtain ⟨h1, _⟩ := crawlGo_zero_inv h
    exact Or.inl (h1 ▸ hx)
  | succ fuel ih =>
    intro st res tr h x hx
    rcases crawlGo_succ_inv h with ⟨_, h1, h2⟩ | ⟨_, st', tr', hstep, hgo, htr⟩
    · subst h2
      exact Or.inl (h1 ▸ hx)
    · subst htr
      obtain ⟨hst', hall⟩ := crawlStep_ok_inv hstep
      rcases ih st' res tr' hgo x hx with hx' | ⟨e, he, u, hu, p, hp, hq⟩
      · rw [hst'] at hx'
        rcases Finset.mem_union.mp hx' with hx0 | hxc
        · exact Or.inl hx0
        · obtain ⟨v, hv, hxv⟩ := Finset.mem_sup.mp hxc
          obtain ⟨p, hp⟩ := Option.isSome_iff_exists.mp (hall v hv)
          rw [extractFrom, hp] at hxv
          exact Or.inr ⟨(st.1, st.2), List.mem_cons_self _ _, v, hv, p, hp, hxv⟩
      · exact Or.inr ⟨e, List.mem_cons_of_mem _ he, u, hu, p, hp, hq⟩

lemma get_mem_drop {α : Type} : ∀ (l : List α) (i j : Nat), i < j →
    ∀ (hj : j < l.length), l.get ⟨j, hj⟩ ∈ l.drop (i + 1) := by
  intro l
  induction l with
  | nil =>
    intro i j hij hj
    exact absurd hj (by simp)
  | cons a l ih =>
    intro i j hij hj
    cases j with
    | zero => omega
    | succ k =>
      simp only [List.get_eq_getElem, List.getElem_cons_succ]
      cases i with
      | zero =>
        simp only [List.drop_succ_cons, List.drop_zero]
        exact List.getElem_mem _
      | succ m =>
        simp only [List.drop_succ_cons]
        have hk : k < l.length := by
          simp only [List.length_cons] at hj
          omega
        have hmem := ih m k (by omega) hk
        simpa only [List.get_eq_getElem] using hmem

/-- **C2**: on every successful crawl, an address in the Visited Set at the
start of level `i` (second component of trace entry `i`) is never a fetch
target at level `j > i` (first component of trace entry `j`): each new
Frontier is the level's combined link set minus the Visited Set at the start
of that level, and the Visited Set only grows. -/
theorem c2_no_refetch (isURL : Addr → Bool) (fetch : Addr → Option Page)
    (domain : Addr) (depth : Nat) (filterFn : Addr → Bool)
    (res : Finset Addr) (tr : List (Finset Addr × Finset Addr))
    (h : crawl isURL fetch domain depth filterFn = .ok (res, tr))
    (i j : Nat) (hij : i < j) (hi : i < tr.length) (hj : j < tr.length) :
    ∀ u ∈ (tr.get ⟨j, hj⟩).1, u ∉ (tr.get ⟨i, hi⟩).2 := by
  intro u hu
  unfold crawl at h
  by_cases hvv : isURL ("http://".toList ++ domain) = false
  · rw [if_pos hvv] at h
    exact Except.noConfusion h
  · rw [if_neg hvv] at h
    by_cases hd : depth = 0
    · rw [if_pos hd] at h
      injection h with h'
      injection h' with ha hb
      subst hb
      exact absurd hj (by simp)
    · rw [if_neg hd] at h
      exact crawlGo_drop depth _ res tr h i hi (tr.get ⟨j, hj⟩)
        (get_mem_drop tr i j hij hj) u hu

theorem c2_witness :
    exB ∉ (exTrace.get ⟨0, by decide⟩).2 :=
  c2_no_refetch exIsURL exFetch exDomain 2 exFilter {exB, exSeed}
    exTrace rfl 0 1 (by decide) (by decide) (by decide)
    exB (by decide)

/-- **C3**: once the Frontier is empty the remaining levels perform no
fetches: with any fuel left, the loop returns the Visited Set unchanged and
an empty fetch trace; moreover every level that does appear in a trace
fetched a nonempty frontier (the `i = depth` escape of line 69 only ever
runs a body whose `Promise.all` is over the empty set). -/
theorem c3_empty_frontier (fetch : Addr → Option Page)
    (filterFn : Addr → Bool) :
    (∀ fuel allLinks, crawlGo fetch filterFn fuel (∅, allLinks)
        = .ok (allLinks, [])) ∧
    (∀ fuel st res tr, crawlGo fetch filterFn fuel st = .ok (res, tr) →
      ∀ e ∈ tr, e.1 ≠ ∅) := by
  constructor
  · intro fuel allLinks
    cases fuel with
    | zero => rfl
    | succ n =>
      simp [crawlGo]
  · intro fuel
    induction fuel with
    | zero =>
      intro st res tr h e he
      obtain ⟨_, h2⟩ := crawlGo_zero_inv h
      subst h2
      exact absurd he (List.not_mem_nil e)
    | succ n ih =>
      intro st res tr h e he
      rcases crawlGo_succ_inv h with ⟨_, _, h2⟩ | ⟨hne, st', tr', hstep, hgo, htr⟩
      · subst h2
        exact absurd he (List.not_mem_nil e)
      · subst htr
        rcases List.mem_cons.mp he with rfl | he'
        · exact hne
        · exact ih st' res tr' hgo e he'

theorem c3_witness :
    crawlGo exFetch exFilter 2 (∅, {exB}) = .ok ({exB}, []) ∧
    ({exSeed} : Finset Addr) ≠ ∅ :=
  ⟨(c3_empty_frontier exFetch exFilter).1 2 {exB},
   (c3_empty_frontier exFetch exFilter).2 2 ({exSeed}, ∅) {exB, exSeed}
     exTrace rfl ({exSeed}, ∅) (by decide)⟩

/-- **C6**: a failed fetch aborts the whole crawl call with no partial
result: (1) on every successful crawl, every address ever fetched had a
successful fetch — contrapositively a crawl that meets a failing fetch
target never returns a Visited Set; (2) a level whose frontier contains an
address whose fetch fails rejects with `FetchError`. -/
theorem c6_fetch_error (isURL : Addr → Bool) (fetch : Addr → Option Page)
    (domain : Addr) (depth : Nat) (filterFn : Addr → Bool) :
    (∀ res tr, crawl isURL fetch domain depth filterFn = .ok (res, tr) →
      ∀ e ∈ tr, ∀ u ∈ e.1, (fetch u).isSome = true) ∧
    (∀ links allLinks u, u ∈ links → fetch u = none →
      crawlStep fetch filterFn links allLinks = .error .fetchError) := by
  constructor
  · intro res tr h e he u hu
    unfold crawl at h
    by_cases hvv : isURL ("http://".toList ++ domain) = false
    · rw [if_pos hvv] at h
      exact Except.noConfusion h
    · rw [if_neg hvv] at h
      by_cases hd : depth = 0
      · rw [if_pos hd] at h
        injection h with h'
        injection h' with ha hb
        subst hb
        exact absurd he (List.not_mem_nil e)
      · rw [if_neg hd] at h
        exact crawlGo_fetch_ok depth _ res tr h e he u hu
  · intro links allLinks u hu hnone
    have hno : ¬ ∀ v ∈ links, (fetch v).isSome = true := by
      intro hall
      have h1 := hall u hu
      rw [hnone] at h1
      simp at h1
    unfold crawlStep
    rw [if_neg hno]

theorem c6_witness :
    (exFetch exSeed).isSome = true ∧
    crawlStep (fun _ => none) exFilter {exB} ∅ = .error .fetchError :=
  ⟨(c6_fetch_error exIsURL exFetch exDomain 2 exFilter).1 {exB, exSeed}
      exTrace rfl ({exSeed}, ∅) (by decide) exSeed
      (by decide),
   (c6_fetch_error exIsURL (fun _ => none) exDomain 2 exFilter).2 {exB} ∅ exB
      (by decide) rfl⟩

lemma queueLinks_mem_canonical {pageContent : Page} {filterFn : Addr → Bool}
    {x : Addr} (h : x ∈ queueLinks pageContent filterFn) :
    ∃ v ∈ (pageContent.anchors.filterMap id).filter filterFn,
      x = canonicalizeScheme v := by
  unfold queueLinks at h
  split at h
  · rw [List.mem_toFinset] at h
    obtain ⟨v, hvmem, hv⟩ := List.mem_map.mp h
    exact ⟨v, hvmem, hv.symm⟩
  · exact absurd h (Finset.not_mem_empty x)

lemma canonicalizeScheme_httpss {v : Addr}
    (h5 : (canonicalizeScheme v).take 5 = "https".toList) :
    v.take 6 = "httpss".toList := by
  by_cases hv : v.take 5 = "https".toList
  · have hvstruct : "https".toList ++ v.drop 5 = v := by
      rw [← hv]
      exact List.take_append_drop 5 v
    unfold canonicalizeScheme at h5
    rw [if_pos hv] at h5
    rw [← hvstruct]
    rcases hw : v.drop 5 with _ | ⟨a, l⟩
    · rw [hw] at h5
      exact absurd h5 (by decide)
    · rw [hw] at h5
      have ha : (['h', 't', 't', 'p', a] : List Char)
          = ['h', 't', 't', 'p', 's'] := h5
      injection ha with e1 ha
      injection ha with e2 ha
      injection ha with e3 ha
      injection ha with e4 ha
      injection ha with e5 ha
      subst e5
      rfl
  · unfold canonicalizeScheme at h5
    rw [if_neg hv] at h5
    exact absurd h5 hv

/-- **C4, amended**: every member of a returned set that begins with the
secure scheme prefix `https` is the image under the line-33 rewrite of an
extracted link of some fetched page — an href that survived the
string-typing and caller filters of lines 31-32 — and that link began with
`httpss`: an extracted link's own leading `https` is always rewritten to
`http`, but the anchored single-occurrence rewrite can itself manufacture a
leading `https` from a link beginning `httpss`, so the returned set is not
guaranteed free of secure-scheme addresses. -/
theorem c4_amended (isURL : Addr → Bool) (fetch : Addr → Option Page)
    (domain : Addr) (depth : Nat) (filterFn : Addr → Bool)
    (res : Finset Addr) (tr : List (Finset Addr × Finset Addr))
    (h : crawl isURL fetch domain depth filterFn = .ok (res, tr))
    (x : Addr) (hx : x ∈ res) (h5 : x.take 5 = "https".toList) :
    ∃ e ∈ tr, ∃ u ∈ e.1, ∃ p, fetch u = some p ∧
      ∃ v ∈ (p.anchors.filterMap id).filter filterFn,
        x = canonicalizeScheme v ∧ v.take 6 = "httpss".toList := by
  unfold crawl at h
  by_cases hvv : isURL ("http://".toList ++ domain) = false
  · rw [if_pos hvv] at h
    exact Except.noConfusion h
  · rw [if_neg hvv] at h
    by_cases hd : depth = 0
    · rw [if_pos hd] at h
      injection h with h'
      injection h' with ha hb
      rw [← ha] at hx
      have hxs := Finset.mem_singleton.mp hx
      subst hxs
      exfalso
      have ht : ("http://".toList ++ domain).take 5 = "http:".toList := by
        rw [List.take_append_of_le_length (by decide)]
        decide
      rw [ht] at h5
      exact absurd h5 (by decide)
    · rw [if_neg hd] at h
      rcases crawlGo_mem_source depth _ res tr h x hx with
        hx0 | ⟨e, he, u, hu, p, hp, hq⟩
      · exact absurd hx0 (Finset.not_mem_empty x)
      · obtain ⟨v, hvmem, hv⟩ := queueLinks_mem_canonical hq
        refine ⟨e, he, u, hu, p, hp, v, hvmem, hv,
          canonicalizeScheme_httpss ?_⟩
        rw [← hv]
        exact h5

theorem c4_witness :
    ∃ e ∈ c4Trace, ∃ u ∈ e.1, ∃ p, c4Fetch u = some p ∧
      ∃ v ∈ (p.anchors.filterMap id).filter (fun _ => true),
        "https://example.com".toList = canonicalizeScheme v ∧
        v.take 6 = "httpss".toList :=
  c4_amended (fun _ => true) c4Fetch "example.com".toList 1 (fun _ => true)
    {"https://example.com".toList} c4Trace rfl
    "https://example.com".toList (by decide) (by decide)

/-- **C10**: for depth at least 1, the seed address is a member of the
returned set only if it occurs, after canonicalization, among the links
extracted (by `queueLinks`) from some page fetched during the crawl: the
engine starts the Visited Set from the seed page's extracted links and only
ever adds extracted links to it, never the seed address itself. -/
theorem c10_seed_only_extracted (isURL : Addr → Bool)
    (fetch : Addr → Option Page) (domain : Addr) (depth : Nat)
    (filterFn : Addr → Bool) (res : Finset Addr)
    (tr : List (Finset Addr × Finset Addr)) (hd : 1 ≤ depth)
    (h : crawl isURL fetch domain depth filterFn = .ok (res, tr))
    (hseed : "http://".toList ++ domain ∈ res) :
    ∃ e ∈ tr, ∃ u ∈ e.1, ∃ p, fetch u = some p ∧
      "http://".toList ++ domain ∈ queueLinks p filterFn := by
  unfold crawl at h
  by_cases hvv : isURL ("http://".toList ++ domain) = false
  · rw [if_pos hvv] at h
    exact Except.noConfusion h
  · rw [if_neg hvv] at h
    by_cases hdz : depth = 0
    · omega
    · rw [if_neg hdz] at h
      rcases crawlGo_mem_source depth _ res tr h _ hseed with h0 | hex
      · exact absurd h0 (Finset.not_mem_empty _)
      · exact hex

theorem c10_witness :
    ∃ e ∈ exTrace, ∃ u ∈ e.1, ∃ p, exFetch u = some p ∧
      "http://".toList ++ exDomain ∈ queueLinks p exFilter :=
  c10_seed_only_extracted exIsURL exFetch exDomain 2 exFilter {exB, exSeed}
    exTrace (by decide) rfl (by decide)

lemma foldl_union_mem : ∀ (l : List (Finset Addr)) (acc : Finset Addr)
    (u : Addr), u ∈ l.foldl (fun urlList urlSet => urlSet ∪ urlList) acc ↔
      u ∈ acc ∨ ∃ s ∈ l, u ∈ s := by
  intro l
  induction l with
  | nil =>
    intro acc u
    simp
  | cons s l ih =>
    intro acc u
    simp only [List.foldl_cons]
    rw [ih]
    simp only [Finset.mem_union, List.mem_cons]
    constructor
    · rintro (⟨hu | hu⟩ | ⟨t, ht, hu⟩)
      · exact Or.inr ⟨s, Or.inl rfl, hu⟩
      · exact Or.inl hu
      · exact Or.inr ⟨t, Or.inr ht, hu⟩
    · rintro (hu | ⟨t, ht | ht, hu⟩)
      · exact Or.inl (Or.inr hu)
      · exact Or.inl (Or.inl (ht ▸ hu))
      · exact Or.inr ⟨t, ht, hu⟩

lemma mergeSets_mem (l : List (Finset Addr)) (u : Addr) :
    u ∈ mergeSets l ↔ ∃ s ∈ l, u ∈ s := by
  unfold mergeSets
  rw [foldl_union_mem]
  simp

/-- **C9**: at every level the combined link set built by the reduce of
lines 76-85 is the n-ary union of the per-address extracted link sets:
(1) membership in `mergeSets` is membership in some input set (duplicates
across source pages collapse), (2) `mergeSets` is invariant under every
permutation of the per-address result list, and (3) for every enumeration
of a frontier, folding the per-address `extractFrom` results yields exactly
`combinedSet`, the supremum used by `crawlStep`. -/
theorem c9_merge_is_union :
    (∀ (l : List (Finset Addr)) (u : Addr),
      u ∈ mergeSets l ↔ ∃ s ∈ l, u ∈ s) ∧
    (∀ (l l' : List (Finset Addr)), l.Perm l' → mergeSets l = mergeSets l') ∧
    (∀ (fetch : Addr → Option Page) (filterFn : Addr → Bool)
      (links : Finset Addr) (enum : List Addr), enum.toFinset = links →
      mergeSets (enum.map (extractFrom fetch filterFn))
        = combinedSet fetch filterFn links) := by
  refine ⟨mergeSets_mem, ?_, ?_⟩
  · intro l l' hp
    ext u
    rw [mergeSets_mem, mergeSets_mem]
    constructor
    · rintro ⟨s, hs, hu⟩
      exact ⟨s, hp.mem_iff.mp hs, hu⟩
    · rintro ⟨s, hs, hu⟩
      exact ⟨s, hp.mem_iff.mpr hs, hu⟩
  · intro fetch filterFn links enum henum
    subst henum
    ext u
    rw [mergeSets_mem]
    unfold combinedSet
    rw [Finset.mem_sup]
    constructor
    · rintro ⟨s, hs, hu⟩
      obtain ⟨v, hv, rfl⟩ := List.mem_map.mp hs
      exact ⟨v, List.mem_toFinset.mpr hv, hu⟩
    · rintro ⟨v, hv, hu⟩
      exact ⟨extractFrom fetch filterFn v,
        List.mem_map_of_mem _ (List.mem_toFinset.mp hv), hu⟩

theorem c9_witness :
    (exB ∈ mergeSets [{exB}, {exSeed}] ↔
      ∃ s ∈ ([{exB}, {exSeed}] : List (Finset Addr)), exB ∈ s) ∧
    mergeSets [{exB}, {exSeed}] = mergeSets [{exSeed}, {exB}] ∧
    mergeSets ([exB].map (extractFrom exFetch exFilter))
      = combinedSet exFetch exFilter {exB} :=
  ⟨c9_merge_is_union.1 ([{exB}, {exSeed}] : List (Finset Addr)) exB,
   c9_merge_is_union.2.1 ([{exB}, {exSeed}] : List (Finset Addr))
     ([{exSeed}, {exB}] : List (Finset Addr)) (by decide),
   c9_merge_is_union.2.2 exFetch exFilter {exB} [exB] (by decide)⟩
